import Mathlib

set_option maxHeartbeats 1000000

/-!
Verification development for the vno single-file-component compiler.

The embedding below mirrors the source module that defines the `vno`
object: delimiter-based section extraction (`template`, `script`,
`style`), import resolution (`imports` / `locate`), the instance
fragment builder, the FIFO worklist loop (`parse`), and the emitter
(`build`).  Strings are modelled as `List Char` internally (the JS code
operates on JavaScript strings); JS `String.prototype.slice`,
`indexOf`, `lastIndexOf` and regex-split semantics are reproduced
explicitly.  Fallible operations (accessing `split(...)[1]` when it is
`undefined`, which throws in JS) are modelled with `Option`.
-/

/-- JS word character, as matched by regex `\w` on ASCII input. -/
def isWordChar (c : Char) : Bool := c.isAlphanum || c = '_'

/-- JS whitespace characters matched by regex `\s` (ASCII range). -/
def isJsWs (c : Char) : Bool :=
  c = ' ' || c = '\t' || c = '\n' || c = '\r' || c = '\x0b' || c = '\x0c'

/-- Quote characters of the character class in `path.split` of `vno.imports`:
single quote (39), double quote, backtick (96). -/
def isQuoteChar (c : Char) : Bool := c.toNat = 39 || c.toNat = 34 || c.toNat = 96

/-- Split a character list at every character satisfying `p`, JS
`String.prototype.split` with a single-character class: separators are
dropped, empty segments are kept. -/
def splitOnPred (p : Char → Bool) : List Char → List (List Char)
  | [] => [[]]
  | c :: cs =>
    if p c then [] :: splitOnPred p cs
    else
      match splitOnPred p cs with
      | [] => [[c]]
      | s :: rest => (c :: s) :: rest

/-- Try to match the regex `<\W*pat>` at the head of `cs`; on success
return the remainder after the match.  The `\W*` part is greedy; since
the literal that follows starts with a word character, maximal munch is
exact (no backtracking is ever needed). -/
def matchTagAt (pat : List Char) (cs : List Char) : Option (List Char) :=
  match cs with
  | [] => none
  | c :: rest =>
    if c = '<' then
      let r := rest.dropWhile (fun x => !(isWordChar x))
      if (pat ++ ['>']).isPrefixOf r then some (r.drop (pat.length + 1)) else none
    else none

/-- Worker for `tagSegs`: scan left to right, cutting a segment at every
match of `<\W*pat>`.  `fuel` only needs to cover one unit per consumed
character, so `tagSegs` passes the input length. -/
def tagSegsGo (pat : List Char) : Nat → List Char → List Char → List (List Char)
  | _, acc, [] => [acc.reverse]
  | 0, acc, cs => [acc.reverse ++ cs]
  | fuel + 1, acc, c :: cs =>
    match matchTagAt pat (c :: cs) with
    | some rest => acc.reverse :: tagSegsGo pat fuel [] rest
    | none => tagSegsGo pat fuel (c :: acc) cs

/-- JS `data.split(/<\W*pat>/)`: the list of segments between successive
matches of the loose tag pattern. -/
def tagSegs (pat : List Char) (cs : List Char) : List (List Char) :=
  tagSegsGo pat cs.length [] cs

/-- JS `data.split(/<\W*pat>/)[1]`: `none` models JS `undefined` (no
match at all, hence fewer than two segments). -/
def secondSeg (pat : List Char) (cs : List Char) : Option (List Char) :=
  (tagSegs pat cs)[1]?

def templateTag : List Char := ("template").data

def scriptTag : List Char := ("script").data

def styleTag : List Char := ("style").data

/-- Worker for `normTemplate`: JS `.split(/\n|\s{2,}/).join("")`.  At
each position, alternative `\n` is tried first (removing one newline),
otherwise a whitespace run of length at least two is removed whole;
a lone non-newline whitespace character is kept. -/
def normTplGo : Nat → List Char → List Char
  | _, [] => []
  | 0, cs => cs
  | fuel + 1, c :: cs =>
    if c = '\n' then normTplGo fuel cs
    else if isJsWs c then
      match cs with
      | [] => [c]
      | c2 :: _ =>
        if isJsWs c2 then normTplGo fuel (cs.dropWhile isJsWs)
        else c :: normTplGo fuel cs
    else c :: normTplGo fuel cs

/-- Whitespace normalization of `vno.template`. -/
def normTemplate (cs : List Char) : List Char := normTplGo cs.length cs

/-- JS `String.prototype.indexOf` for a single character: index of the
first occurrence, `-1` if absent. -/
def jsIndexOf (c : Char) (l : List Char) : Int :=
  match l.findIdx? (fun x => x = c) with
  | some i => (i : Int)
  | none => -1

/-- JS `String.prototype.lastIndexOf` for a single character. -/
def jsLastIndexOf (c : Char) (l : List Char) : Int :=
  match l.reverse.findIdx? (fun x => x = c) with
  | some i => ((l.length - 1 - i : Nat) : Int)
  | none => -1

/-- JS `String.prototype.slice` semantics: negative indices count from
the end, everything is clamped to `[0, length]`, and an empty result is
produced when the start does not precede the end. -/
def jsSlice (l : List Char) (start stop : Int) : List Char :=
  (l.take ((if stop < 0 then max ((l.length : Int) + stop) 0
            else min stop (l.length : Int)).toNat)).drop
    ((if start < 0 then max ((l.length : Int) + start) 0
      else min start (l.length : Int)).toNat)

/-- The component record of the source interface: `label`, `path`, the
optional extracted sections and the generated instance fragment
(`instance` in the source; renamed since that word is a Lean keyword). -/
structure Component where
  label : String
  path : String
  template : Option String := none
  script : Option String := none
  style : Option String := none
  instStr : Option String := none
deriving DecidableEq, Repr

/-- The external file system: a finite association of absolute paths to
file contents, standing in for `Deno.readTextFile`. -/
abbrev Fs := List (String × String)

/-- Look up a path in the file system; `none` models a failing read. -/
def fsFind : Fs → String → Option String
  | [], _ => none
  | pd :: rest, q => if pd.1 = q then some pd.2 else fsFind rest q

/-- Mutable state of the `vno` object during `parse`: the worklist
`queue`, the result `cache`, plus a ghost trace `discovered` recording
every label in the order it entered the worklist. -/
structure BuildState where
  queue : List Component
  cache : List Component
  discovered : List String
deriving DecidableEq, Repr

/-- Path normalization of `std/path` `join`: drop empty and `.`
segments, resolve `..` against the accumulated prefix. -/
def normSegs : List (List Char) → List (List Char) → List (List Char)
  | acc, [] => acc.reverse
  | acc, s :: rest =>
    if s = [] || s = ['.'] then normSegs acc rest
    else if s = ['.', '.'] then
      match acc with
      | [] => normSegs [['.', '.']] rest
      | a :: as => if a = ['.', '.'] then normSegs (s :: acc) rest else normSegs as rest
    else normSegs (s :: acc) rest

/-- Interleave `/` between path segments. -/
def joinSegs : List (List Char) → List Char
  | [] => []
  | [s] => s
  | s :: rest => s ++ '/' :: joinSegs rest

/-- Deno `std/path` `join(base, rel)`: concatenate with a separator and
normalize, keeping a leading slash of an absolute base. -/
def joinPath (base rel : String) : String :=
  let parts := splitOnPred (fun c => c = '/') (base.data ++ '/' :: rel.data)
  let segs := normSegs [] parts
  let j := joinSegs segs
  String.mk (if base.data.head? = some '/' then '/' :: j else j)

namespace vno

/-- Source `vno.locate`: `join(Deno.cwd(), relative)`; the ambient
`Deno.cwd()` is passed explicitly. -/
def locate (cwd rel : String) : String := joinPath cwd rel

/-- Source `vno.template`: `data.split(/<\W*template>/)[1]` followed by
`.split(/\n|\s{2,}/).join("")`.  `none` models the JS `TypeError`
thrown when the first split has no match and `[1]` is `undefined`. -/
def template (data : String) : Option String :=
  (secondSeg templateTag data.data).map (fun seg => String.mk (normTemplate seg))

/-- Source `vno.script`: `data.split(/<\W*script>/)[1]`, removal of all
whitespace via `.split(/[\n\s]/).join("")`, then
`.slice(indexOf("\x7b") + 1, lastIndexOf("\x7d"))`. -/
def script (data : String) : Option String :=
  (secondSeg scriptTag data.data).map (fun seg =>
    let s := seg.filter (fun c => !(isJsWs c))
    String.mk (jsSlice s (jsIndexOf '\x7b' s + 1) (jsLastIndexOf '\x7d' s)))

/-- Source `vno.style`: `data.split(/<\W*style>/)[1]` with all
whitespace removed. -/
def style (data : String) : Option String :=
  (secondSeg styleTag data.data).map (fun seg => String.mk (seg.filter (fun c => !(isJsWs c))))

/-- Source: the split of the path token of `vno.imports` on the quote
character class, at index 1: the text between the first and second
quote character; when index 1 is `undefined` (JS), the template literal
in `locate` stringifies it to the text undefined. -/
def firstQuoted (t : List Char) : List Char :=
  match (splitOnPred isQuoteChar t)[1]? with
  | some q => q
  | none => ("undefined").data

/-- The body of the `forEach` in `vno.imports` for one import line:
destructure the single-space split into its first four elements, take
the second as the label and the first quoted substring of the fourth as
the relative path, resolved through `locate`.  `none` models the JS
`TypeError` thrown when the line has fewer than four space-separated
tokens (the path token is `undefined`). -/
def lineToComponent (cwd : String) (line : List Char) : Option Component :=
  match splitOnPred (fun c => c = ' ') line with
  | _ :: t1 :: _ :: t3 :: _ =>
    some { label := String.mk t1, path := locate cwd (String.mk (firstQuoted t3)) }
  | _ => none

/-- Source `data.split(/\n/)` filtered by `/^(import)/`. -/
def importLines (data : String) : List (List Char) :=
  (splitOnPred (fun c => c = '\n') data.data).filter
    (fun l => (("import").data).isPrefixOf l)

/-- Run `lineToComponent` over each import line, aborting on the first
line that throws. -/
def importsGo (cwd : String) : List (List Char) → Option (List Component)
  | [] => some []
  | l :: ls =>
    match lineToComponent cwd l with
    | none => none
    | some c =>
      match importsGo cwd ls with
      | none => none
      | some cs => some (c :: cs)

/-- Source `vno.imports` up to the dedup/push step: the candidate
components derived from the import lines of `data`, in order. -/
def imports (cwd : String) (data : String) : Option (List Component) :=
  importsGo cwd (importLines data)

/-- Source `vno.instance` fragment text: the hardcoded `label === "App"`
branch selects the root-instantiation form, every other label the
`Vue.component` named-registration form. -/
def instanceFor (label template script : String) : String :=
  if label = "App" then
    "\nconst " ++ label ++ " = new Vue(\x7btemplate: `" ++ template ++ "`," ++ script ++ "\x7d)"
  else
    "\nconst " ++ label ++ " = Vue.component(\"" ++ label ++ "\", \x7btemplate: `" ++
      template ++ "`," ++ script ++ "\x7d)"

/-- The dedup-and-push `forEach` of `vno.imports`: each candidate is
pushed to the back of the queue unless its label already occurs in the
cache or in the queue as it stands at that moment; the ghost
`discovered` trace is extended for every actual push. -/
def pushKids (cacheL : List Component) :
    List Component → List String → List Component → List Component × List String
  | q, disc, [] => (q, disc)
  | q, disc, k :: ks =>
    if cacheL.any (fun ch => ch.label == k.label) || q.any (fun ch => ch.label == k.label) then
      pushKids cacheL q disc ks
    else
      pushKids cacheL (q ++ [k]) (disc ++ [k.label]) ks

/-- One iteration of the `while (this.queue.length)` loop of
`vno.parse`: shift the front record, read its file, run the extractors,
build the instance fragment, resolve and push imports, then push the
finalized record into the cache.  `none` models an uncaught JS
exception (failed read or failed extraction) aborting the build. -/
def step (cwd : String) (fs : Fs) (st : BuildState) : Option BuildState :=
  match st.queue with
  | [] => some st
  | current :: rest =>
    match fsFind fs current.path with
    | none => none
    | some data =>
      match template data, script data, style data with
      | some t, some s, some sty =>
        match imports cwd data with
        | none => none
        | some kids =>
          let fin : Component :=
            { current with
              template := some t, script := some s, style := some sty,
              instStr := some (instanceFor current.label t s) }
          let qd := pushKids st.cache rest st.discovered kids
          some { queue := qd.1, cache := st.cache ++ [fin], discovered := qd.2 }
      | _, _, _ => none

/-- The worklist loop of `vno.parse`, fuelled: stops as soon as the
queue is empty; with insufficient fuel it returns the state reached. -/
def parseLoop (cwd : String) (fs : Fs) : Nat → BuildState → Option BuildState
  | 0, st => some st
  | fuel + 1, st =>
    match st.queue with
    | [] => some st
    | _ :: _ =>
      match step cwd fs st with
      | none => none
      | some st1 => parseLoop cwd fs fuel st1

/-- State at entry of the loop: `this.queue.push(root)` on empty
queue and cache. -/
def initState (root : Component) : BuildState :=
  { queue := [root], cache := [], discovered := [root.label] }

/-- The text appended to the output file for one record inside
`vno.build` (`undefined` when no instance fragment was generated). -/
def fragOf (c : Component) : String :=
  match c.instStr with
  | some s => s
  | none => "undefined"

/-- Source `vno.build`: `const reverse = this.cache.reverse()` reverses
the cache array in place, then each record's instance fragment is
appended to the single output file in that order.  Returns the mutated
state together with the ordered list of appended fragments. -/
def build (st : BuildState) : BuildState × List String :=
  ({ st with cache := st.cache.reverse }, (st.cache.reverse).map fragOf)

/-- Source `vno.parse`: seed the queue with the root, drain the
worklist, run `build`, and return `this.cache` as it stands after
`build` has mutated it. -/
def parse (cwd : String) (fs : Fs) (fuel : Nat) (root : Component) :
    Option (List Component × List String) :=
  (parseLoop cwd fs fuel (initState root)).map (fun st => ((build st).1.cache, (build st).2))

end vno

/-- Every component record that the resolver could ever create from the
given file system, plus nothing else: the concatenated import
candidates of every file. -/
def allFromFiles (cwd : String) : Fs → List Component
  | [] => []
  | pd :: rest => ((vno.imports cwd pd.2).getD []) ++ allFromFiles cwd rest

/-- The universe of discoverable component records: the root plus
every import candidate of every file of the file system. -/
def allComponents (cwd : String) (fs : Fs) (root : Component) : List Component :=
  root :: allFromFiles cwd fs

/-- Label-graph edges contributed by one component: from its label to
the label of each import candidate of the file at its path. -/
def edgesOf (cwd : String) (fs : Fs) (c : Component) : List (String × String) :=
  match fsFind fs c.path with
  | none => []
  | some d => ((vno.imports cwd d).getD []).map (fun k => (c.label, k.label))

def edgeListGo (cwd : String) (fs : Fs) : List Component → List (String × String)
  | [] => []
  | c :: rest => edgesOf cwd fs c ++ edgeListGo cwd fs rest

/-- The import graph by label of a build input: all edges contributed
by discoverable components. -/
def edgeList (cwd : String) (fs : Fs) (root : Component) : List (String × String) :=
  edgeListGo cwd fs (allComponents cwd fs root)

/-- The import graph by label has no cycles: no label reaches itself
through a nonempty edge path. -/
def Acyclic (cwd : String) (fs : Fs) (root : Component) : Prop :=
  ∀ l : String, ¬ Relation.TransGen (fun a b => (a, b) ∈ edgeList cwd fs root) l l

/-- The input is a set of component files: the root's file is present,
every file extracts all three sections and resolves its imports without
throwing, and every referenced import path is present. -/
def wellFormed (cwd : String) (fs : Fs) (root : Component) : Prop :=
  (fsFind fs root.path).isSome = true ∧
  ∀ pd ∈ fs,
    (vno.template pd.2).isSome = true ∧ (vno.script pd.2).isSome = true ∧
    (vno.style pd.2).isSome = true ∧ (vno.imports cwd pd.2).isSome = true ∧
    ∀ k ∈ (vno.imports cwd pd.2).getD [], (fsFind fs k.path).isSome = true

/-- Well-formedness is a decidable property of the concrete input. -/
instance wellFormedDecidable (cwd : String) (fs : Fs) (root : Component) :
    Decidable (wellFormed cwd fs root) := by
  unfold wellFormed
  exact inferInstance

/-- Scheduler invariant: the ghost discovery trace is exactly the cache
followed by the queue (so every discovered label is in exactly one of
the two), it has no duplicates, and every live record descends from a
discoverable component. -/
def SchedInv (cwd : String) (fs : Fs) (root : Component) (st : BuildState) : Prop :=
  st.discovered = (st.cache ++ st.queue).map Component.label ∧
  st.discovered.Nodup ∧
  ∀ x ∈ st.cache ++ st.queue,
    ∃ a ∈ allComponents cwd fs root, a.label = x.label ∧ a.path = x.path

/-- The record as pushed to the cache by one scheduler iteration. -/
def finalize (c : Component) (t s sty : String) : Component :=
  { c with template := some t, script := some s, style := some sty,
           instStr := some (vno.instanceFor c.label t s) }

/-- Working directory used by the concrete build fixtures. -/
def cwdW : String := "/proj"

/-- A two-component acyclic fixture: the root file imports `Child`. -/
def appText : String :=
  "<template>a</template><script>\x7bx\x7d</script><style>c</style>\nimport Child from \"./Child.vue\""

def childText : String :=
  "<template>b</template><script>\x7by\x7d</script><style>d</style>"

def fsGood : Fs := [("/proj/App.vue", appText), ("/proj/Child.vue", childText)]

def rootW : Component := { label := "App", path := "/proj/App.vue" }

/-- A self-import fixture: the root file imports its own label. -/
def selfText : String :=
  "<template>a</template><script>\x7bx\x7d</script><style>c</style>\nimport App from \"./App.vue\""

def fsSelf : Fs := [("/proj/App.vue", selfText)]

/-- The state reached after one scheduler iteration on the self-import
fixture: label "App" is simultaneously in the cache and in the queue,
and its record has entered the worklist twice. -/
def stBad : BuildState :=
  { queue := [{ label := "App", path := "/proj/App.vue" }],
    cache := [{ label := "App", path := "/proj/App.vue",
                template := some ("a"), script := some ("x"), style := some ("c"),
                instStr := some ("\nconst App = new Vue(\x7btemplate: `a`,x\x7d)") }],
    discovered := ["App", "App"] }

/-- The source string of the extractor scenario of the spec. -/
def src6 : String :=
  "<template>\n  <div>Hi</div>\n</template><script>\n  \x7bdata()\x7breturn \x7b\x7d\x7d\x7d\n</script>"

/-- Claim C6: on the concrete scenario source, template extraction
yields exactly the collapsed div markup and script extraction yields
exactly the brace-stripped, whitespace-free object body. -/
theorem c6_extractor_scenario :
    vno.template src6 = some ("<div>Hi</div>") ∧
    vno.script src6 = some ("data()\x7breturn\x7b\x7d\x7d") := by
  decide

/-- Claim C3: the emitter appends instance fragments in exactly the
reverse of the cache's finalization order, for every store. -/
theorem c3_emit_reverse_finalization_order (st : BuildState) :
    (vno.build st).2 = (st.cache.map vno.fragOf).reverse := by
  simp [vno.build, List.map_reverse]

/-- Claim C9: instance-fragment construction branches on the single
hardcoded root label "App": that label yields the root `new Vue`
instantiation form, every other label yields the `Vue.component`
named-registration form with the label as both registry key and
binding name. -/
theorem c9_instance_branches (label t s : String) :
    (label = "App" →
      vno.instanceFor label t s =
        "\nconst App = new Vue(\x7btemplate: `" ++ t ++ "`," ++ s ++ "\x7d)") ∧
    (label ≠ "App" →
      vno.instanceFor label t s =
        "\nconst " ++ label ++ " = Vue.component(\"" ++ label ++ "\", \x7btemplate: `" ++
          t ++ "`," ++ s ++ "\x7d)") := by
  constructor
  · intro h
    subst h
    rfl
  · intro h
    simp [vno.instanceFor, h]

/-- Witness for C9 at the root label and at a non-root label. -/
theorem c9_witness :
    vno.instanceFor "App" "T" "S" = "\nconst App = new Vue(\x7btemplate: `T`,S\x7d)" ∧
    vno.instanceFor "Nav" "T" "S" =
      "\nconst Nav = Vue.component(\"Nav\", \x7btemplate: `T`,S\x7d)" := by
  constructor
  · have h := (c9_instance_branches "App" "T" "S").1 rfl
    simpa using h
  · have h := (c9_instance_branches "Nav" "T" "S").2 (by decide)
    simpa using h

/-- Claim C10: `build` reverses the cache in place, so the store
contents returned by `parse` after a completed build are the reverse of
the finalization (discovery) order. -/
theorem c10_build_mutates_store (cwd : String) (fs : Fs) (fuel : Nat) (root : Component)
    (st : BuildState) (h : vno.parseLoop cwd fs fuel (vno.initState root) = some st) :
    vno.parse cwd fs fuel root = some (st.cache.reverse, (st.cache.map vno.fragOf).reverse) ∧
    (vno.build st).1.cache = st.cache.reverse := by
  constructor
  · simp [vno.parse, h, vno.build, List.map_reverse]
  · rfl

/-- Witness for C10 on the concrete two-component fixture. -/
theorem c10_witness :
    ∃ st, vno.parseLoop cwdW fsGood 3 (vno.initState rootW) = some st ∧
      vno.parse cwdW fsGood 3 rootW =
        some (st.cache.reverse, (st.cache.map vno.fragOf).reverse) := by
  have hs : (vno.parseLoop cwdW fsGood 3 (vno.initState rootW)).isSome = true := by decide
  obtain ⟨st, hst⟩ := Option.isSome_iff_exists.mp hs
  exact ⟨st, hst, (c10_build_mutates_store cwdW fsGood 3 rootW st hst).1⟩

/-- Counterexample to claim C2 as stated: on the self-import fixture,
after one scheduler iteration the label "App" is in the cache and in
the queue at the same time, and its record has entered the worklist
twice. -/
theorem c2_counterexample :
    vno.parseLoop cwdW fsSelf 1 (vno.initState rootW) = some stBad ∧
    "App" ∈ stBad.cache.map Component.label ∧
    "App" ∈ stBad.queue.map Component.label ∧
    stBad.discovered = ["App", "App"] := by
  decide

/-- Counterexample to claim C4 as stated: a script section with no
braces is sliced (JS `slice(0, -1)` on "abc" gives "ab"), not rejected
with an error. -/
theorem c4_counterexample :
    vno.script ("<script>abc</script>") = some ("ab") := by
  decide

/-- Counterexample to claim C7 as stated: the loose pattern also
matches the closing tag, so the extracted span is only the section
body "A"; the trailing content "B" after the closing tag is not part of
the span. -/
theorem c7_counterexample :
    secondSeg templateTag (("<template>A</template>B").data) = some (("A").data) ∧
    vno.template ("<template>A</template>B") = some ("A") ∧
    ("A").data ≠ ("A</template>B").data := by
  decide

/-- Counterexample to claim C8 as stated: with two quoted tokens on
the line, the resolver takes the path from the fourth token, namely
a.vue, not from the last token b.vue. -/
theorem c8_counterexample :
    vno.imports cwdW ("import Child from \"./a.vue\" \"./b.vue\"") =
      some ([{ label := "Child", path := "/proj/a.vue" }]) ∧
    vno.locate cwdW ("./b.vue") = "/proj/b.vue" ∧
    ("/proj/a.vue" : String) ≠ "/proj/b.vue" := by
  decide

/-- If a character is absent, JS `indexOf` returns -1. -/
lemma jsIndexOf_of_not_mem (c : Char) (l : List Char) (h : c ∉ l) : jsIndexOf c l = -1 := by
  have hn : l.findIdx? (fun x => x = c) = none := by
    rw [List.findIdx?_eq_none_iff]
    intro x hx
    simp only [decide_eq_false_iff_not]
    exact fun e => h (e ▸ hx)
  simp [jsIndexOf, hn]

/-- If a character is absent, JS `lastIndexOf` returns -1. -/
lemma jsLastIndexOf_of_not_mem (c : Char) (l : List Char) (h : c ∉ l) : jsLastIndexOf c l = -1 := by
  have hn : l.reverse.findIdx? (fun x => x = c) = none := by
    rw [List.findIdx?_eq_none_iff]
    intro x hx
    simp only [decide_eq_false_iff_not]
    exact fun e => h (e ▸ (List.mem_reverse.mp hx))
  simp [jsLastIndexOf, hn]

/-- JS `lastIndexOf` of a present character is nonnegative. -/
lemma jsLastIndexOf_nonneg_of_mem (c : Char) (l : List Char) (h : c ∈ l) :
    0 ≤ jsLastIndexOf c l := by
  have he : l.reverse.findIdx? (fun x => x = c) =
      some (l.reverse.findIdx (fun x => x = c)) := by
    apply List.findIdx?_eq_some_of_exists
    exact ⟨c, List.mem_reverse.mpr h, by simp⟩
  simp [jsLastIndexOf, he]

/-- JS `slice(0, -1)` drops the last character. -/
lemma jsSlice_zero_negOne (l : List Char) : jsSlice l 0 (-1) = l.dropLast := by
  unfold jsSlice
  rw [if_pos (by norm_num : (-1 : Int) < 0), if_neg (by norm_num : ¬ ((0 : Int) < 0))]
  have h3 : (max ((l.length : Int) + (-1)) 0).toNat = l.length - 1 := by omega
  have h4 : (min (0 : Int) (l.length : Int)).toNat = 0 := by omega
  rw [h3, h4, List.drop_zero, List.dropLast_eq_take]

/-- JS `slice` with a nonnegative end before the start is empty. -/
lemma jsSlice_nil_of_inverted (l : List Char) (start stop : Int)
    (h0 : 0 ≤ stop) (h : stop < start) : jsSlice l start stop = [] := by
  unfold jsSlice
  rw [if_neg (by omega : ¬ (start < 0)), if_neg (by omega : ¬ (stop < 0))]
  apply List.drop_eq_nil_of_le
  rw [List.length_take]
  omega

/-- Claim C4 amended: once the script tag split succeeds, extraction
always returns a sliced result; on a brace-free body the slice is
`slice(0, -1)`, the normalized text minus its last character; with the
last closing brace before the first opening brace the slice is empty.
No error condition exists. -/
theorem c4_script_slices_instead_of_failing (d : String) (seg : List Char)
    (h : secondSeg scriptTag d.data = some seg) :
    (vno.script d).isSome = true ∧
    ('\x7b' ∉ seg.filter (fun c => !(isJsWs c)) → '\x7d' ∉ seg.filter (fun c => !(isJsWs c)) →
      vno.script d = some (String.mk ((seg.filter (fun c => !(isJsWs c))).dropLast))) ∧
    ('\x7d' ∈ seg.filter (fun c => !(isJsWs c)) →
      jsLastIndexOf '\x7d' (seg.filter (fun c => !(isJsWs c))) <
        jsIndexOf '\x7b' (seg.filter (fun c => !(isJsWs c))) + 1 →
      vno.script d = some "") := by
  refine ⟨?_, ?_, ?_⟩
  · simp [vno.script, h]
  · intro hb hb2
    have h1 : jsIndexOf '\x7b' (seg.filter (fun c => !(isJsWs c))) = -1 :=
      jsIndexOf_of_not_mem _ _ hb
    have h2 : jsLastIndexOf '\x7d' (seg.filter (fun c => !(isJsWs c))) = -1 :=
      jsLastIndexOf_of_not_mem _ _ hb2
    simp only [vno.script, h, Option.map_some']
    rw [h1, h2]
    norm_num
    rw [jsSlice_zero_negOne]
  · intro hm hlt
    have h0 : 0 ≤ jsLastIndexOf '\x7d' (seg.filter (fun c => !(isJsWs c))) :=
      jsLastIndexOf_nonneg_of_mem _ _ hm
    simp only [vno.script, h, Option.map_some']
    rw [jsSlice_nil_of_inverted _ _ _ h0 hlt]

theorem c4_witness :
    secondSeg scriptTag (("<script>xyz</script>").data) = some (("xyz").data) ∧
    vno.script ("<script>xyz</script>") = some ("xy") := by
  constructor
  · decide
  · have h := (c4_script_slices_instead_of_failing ("<script>xyz</script>")
      (("xyz").data) (by decide)).2.1 (by decide) (by decide)
    rw [h]
    decide

/-- Claim C5: a section tag entirely absent makes the split produce a
single segment, extraction hits JS `undefined` and fails; the failure
propagates through the scheduler step, so nothing is stored. -/
theorem c5_missing_section_fails (d : String) :
    ((tagSegs templateTag d.data).length ≤ 1 → vno.template d = none) ∧
    ((tagSegs scriptTag d.data).length ≤ 1 → vno.script d = none) ∧
    ((tagSegs styleTag d.data).length ≤ 1 → vno.style d = none) ∧
    (∀ cwd fs st c rest data, st.queue = c :: rest → fsFind fs c.path = some data →
      (tagSegs templateTag data.data).length ≤ 1 → vno.step cwd fs st = none) := by
  refine ⟨?_, ?_, ?_, ?_⟩
  · intro h
    simp [vno.template, secondSeg, List.getElem?_eq_none h]
  · intro h
    simp [vno.script, secondSeg, List.getElem?_eq_none h]
  · intro h
    simp [vno.style, secondSeg, List.getElem?_eq_none h]
  · intro cwd fs st c rest data hq hf hlen
    have ht : vno.template data = none := by
      simp [vno.template, secondSeg, List.getElem?_eq_none hlen]
    cases hs : vno.script data <;> cases hy : vno.style data <;>
      simp [vno.step, hq, hf, ht, hs, hy]

theorem c5_witness :
    vno.template ("hello") = none ∧ vno.script ("hello") = none ∧
    vno.style ("hello") = none ∧
    vno.step cwdW [("p", "hello")]
      { queue := [{ label := "X", path := "p" }], cache := [], discovered := ["X"] } = none := by
  refine ⟨(c5_missing_section_fails ("hello")).1 (by decide),
    (c5_missing_section_fails ("hello")).2.1 (by decide),
    (c5_missing_section_fails ("hello")).2.2.1 (by decide),
    (c5_missing_section_fails ("hello")).2.2.2 cwdW [("p", "hello")] _
      { label := "X", path := "p" } [] ("hello") rfl (by decide) (by decide)⟩

/-- Claim C8 amended: the resolver takes the label from the second and
the quoted path from the fourth element of the single-space split of
the import line (not from the last token), resolving against the
process working directory. -/
theorem c8_fourth_token_resolution (cwd : String) (line : List Char)
    (t0 t1 t2 t3 : List Char) (rest : List (List Char))
    (h : splitOnPred (fun c => c = ' ') line = t0 :: t1 :: t2 :: t3 :: rest) :
    vno.lineToComponent cwd line =
      some { label := String.mk t1, path := vno.locate cwd (String.mk (vno.firstQuoted t3)) } := by
  unfold vno.lineToComponent
  rw [h]

theorem c8_witness :
    splitOnPred (fun c => c = ' ') (("import Child from \"./Child.vue\"").data) =
      ("import").data :: ("Child").data :: ("from").data :: ("\"./Child.vue\"").data :: [] ∧
    vno.lineToComponent cwdW (("import Child from \"./Child.vue\"").data) =
      some { label := "Child", path := "/proj/Child.vue" } := by
  constructor
  · decide
  · rw [c8_fourth_token_resolution cwdW (("import Child from \"./Child.vue\"").data)
      (("import").data) (("Child").data) (("from").data) (("\"./Child.vue\"").data) []
      (by decide)]
    decide

/-- No tag match can start at a character other than an opening angle
bracket. -/
lemma matchTagAt_cons_ne (pat : List Char) (c : Char) (cs : List Char) (h : c ≠ '<') :
    matchTagAt pat (c :: cs) = none := by
  simp [matchTagAt, h]

/-- Scanning characters that satisfy the dropped class. -/
lemma dropWhile_append_all (p : Char → Bool) (pre l : List Char)
    (hpre : ∀ c ∈ pre, p c = true) : (pre ++ l).dropWhile p = l.dropWhile p := by
  induction pre with
  | nil => simp
  | cons c pre ih =>
    have hc : p c = true := hpre c (List.mem_cons_self c pre)
    simp only [List.cons_append, List.dropWhile_cons, hc, if_true]
    exact ih (fun x hx => hpre x (List.mem_cons_of_mem c hx))

/-- The loose pattern `<\W*pat>` matches at an opening bracket followed
by non-word filler, the section name, and the closing angle; the
remainder after the match is returned. -/
lemma matchTagAt_found (pat pre X : List Char) (c0 : Char) (cs0 : List Char)
    (hpat : pat = c0 :: cs0) (hw : isWordChar c0 = true)
    (hpre : ∀ c ∈ pre, isWordChar c = false) :
    matchTagAt pat ('<' :: (pre ++ (pat ++ '>' :: X))) = some X := by
  have h1 : (pre ++ (pat ++ '>' :: X)).dropWhile (fun x => !(isWordChar x)) =
      pat ++ '>' :: X := by
    rw [dropWhile_append_all _ pre _ (fun c hc => by simp [hpre c hc])]
    rw [hpat, List.cons_append, List.dropWhile_cons]
    simp [hw]
  have h2 : (pat ++ ['>']).isPrefixOf (pat ++ '>' :: X) = true := by
    rw [List.isPrefixOf_iff_prefix, show pat ++ '>' :: X = (pat ++ ['>']) ++ X by simp]
    exact List.prefix_append _ _
  have h3 : (pat ++ '>' :: X).drop (pat.length + 1) = X := by
    rw [show pat ++ '>' :: X = (pat ++ ['>']) ++ X by simp,
      show pat.length + 1 = (pat ++ ['>']).length by simp]
    exact List.drop_left _ _
  simp only [matchTagAt, if_true]
  rw [h1, if_pos h2, h3]

/-- One splitter step at a match. -/
lemma tagSegsGo_match (pat : List Char) (n : Nat) (acc : List Char) (c : Char)
    (cs rest : List Char) (h : matchTagAt pat (c :: cs) = some rest) :
    tagSegsGo pat (n + 1) acc (c :: cs) = acc.reverse :: tagSegsGo pat n [] rest := by
  simp [tagSegsGo, h]

/-- The splitter carries a bracket-free block into the accumulator
unchanged, spending exactly one unit of fuel per character. -/
lemma tagSegsGo_across (pat body : List Char) (hb : ∀ c ∈ body, c ≠ '<') :
    ∀ g acc rest, tagSegsGo pat (body.length + g) acc (body ++ rest) =
      tagSegsGo pat g (body.reverse ++ acc) rest := by
  induction body with
  | nil =>
    intro g acc rest
    simp
  | cons c body ih =>
    intro g acc rest
    have hc : c ≠ '<' := hb c (List.mem_cons_self c body)
    have hl : (c :: body).length + g = (body.length + g) + 1 := by
      simp only [List.length_cons]
      omega
    rw [hl, List.cons_append]
    rw [show tagSegsGo pat ((body.length + g) + 1) acc (c :: (body ++ rest)) =
        tagSegsGo pat (body.length + g) (c :: acc) (body ++ rest) from by
      simp [tagSegsGo, matchTagAt_cons_ne pat c _ hc]]
    rw [ih (fun x hx => hb x (List.mem_cons_of_mem c hx)) g (c :: acc) rest]
    simp

/-- Claim C7 amended: for a source made of the opening tag, a
bracket-free body, the closing tag and trailing content, the extracted
span stops at the closing tag (which the loose pattern also matches):
it is exactly the body, and the trailing content is excluded. -/
theorem c7_span_stops_at_closing_tag (body trail : List Char)
    (hb : ∀ c ∈ body, c ≠ '<') :
    secondSeg templateTag
      (("<template>").data ++ body ++ ("</template>").data ++ trail) = some body := by
  have hshape : ("<template>").data ++ body ++ ("</template>").data ++ trail =
      '<' :: ([] ++ (templateTag ++ '>' ::
        (body ++ ('<' :: (['/'] ++ (templateTag ++ '>' :: trail)))))) := by
    simp [templateTag]
  have hlen : (("<template>").data ++ body ++ ("</template>").data ++ trail).length =
      (9 + (body.length + (1 + (10 + trail.length)))) + 1 := by
    simp
    omega
  unfold secondSeg tagSegs
  rw [hlen, hshape]
  rw [tagSegsGo_match _ _ _ _ _ _
    (matchTagAt_found templateTag [] _ 't' (("emplate").data) (by decide) (by decide)
      (by intro c hc; cases hc))]
  have hsplit : 9 + (body.length + (1 + (10 + trail.length))) =
      body.length + ((19 + trail.length) + 1) := by omega
  rw [hsplit]
  rw [tagSegsGo_across templateTag body hb ((19 + trail.length) + 1) [] _]
  rw [tagSegsGo_match _ _ _ _ _ _
    (matchTagAt_found templateTag ['/'] trail 't' (("emplate").data) (by decide) (by decide)
      (by intro c hc; simp at hc; subst hc; decide))]
  simp

/-- Witness for the amended C7 on a concrete bracket-free body and
trailing content. -/
theorem c7_witness :
    (∀ c ∈ ("x").data, c ≠ '<') ∧
    secondSeg templateTag
      (("<template>").data ++ ("x").data ++ ("</template>").data ++ ("z").data) =
      some (("x").data) :=
  ⟨by decide, c7_span_stops_at_closing_tag (("x").data) (("z").data) (by decide)⟩

/-- A successful file-system lookup hits an entry of the list. -/
lemma fsFind_mem (fs : Fs) (p d : String) (h : fsFind fs p = some d) : (p, d) ∈ fs := by
  induction fs with
  | nil => cases h
  | cons pd rest ih =>
    rw [fsFind] at h
    by_cases hp : pd.1 = p
    · rw [if_pos hp] at h
      have hpd : pd = (p, d) := by
        cases pd
        cases h
        cases hp
        rfl
      rw [← hpd]
      exact List.mem_cons_self _ _
    · rw [if_neg hp] at h
      exact List.mem_cons_of_mem _ (ih h)

/-- Import candidates of a present file are discoverable components. -/
lemma allFromFiles_mem (cwd : String) (fs : Fs) (p d : String) (hmem : (p, d) ∈ fs)
    (k : Component) (hk : k ∈ (vno.imports cwd d).getD []) : k ∈ allFromFiles cwd fs := by
  induction fs with
  | nil => cases hmem
  | cons pd rest ih =>
    rw [allFromFiles, List.mem_append]
    rcases List.mem_cons.mp hmem with heq | htail
    · left
      rw [← heq]
      exact hk
    · right
      exact ih htail

/-- Each import of the file of a listed component contributes an edge. -/
lemma edgeListGo_mem (cwd : String) (fs : Fs) (comps : List Component) (a : Component)
    (ha : a ∈ comps) (d : String) (hd : fsFind fs a.path = some d)
    (k : Component) (hk : k ∈ (vno.imports cwd d).getD []) :
    (a.label, k.label) ∈ edgeListGo cwd fs comps := by
  induction comps with
  | nil => cases ha
  | cons b rest ih =>
    rw [edgeListGo, List.mem_append]
    rcases List.mem_cons.mp ha with heq | htail
    · left
      subst heq
      rw [edgesOf, hd]
      exact List.mem_map.mpr ⟨k, hk, rfl⟩
    · right
      exact ih htail

/-- Each import of the file of a discoverable component is an edge of
the import graph by label. -/
lemma edge_mem (cwd : String) (fs : Fs) (root : Component) (a : Component)
    (ha : a ∈ allComponents cwd fs root) (d : String) (hd : fsFind fs a.path = some d)
    (k : Component) (hk : k ∈ (vno.imports cwd d).getD []) :
    (a.label, k.label) ∈ edgeList cwd fs root :=
  edgeListGo_mem cwd fs _ a ha d hd k hk

/-- A rank function that strictly decreases along every edge certifies
acyclicity of the import graph by label. -/
lemma acyclic_of_rank (cwd : String) (fs : Fs) (root : Component) (rank : String → Nat)
    (h : ∀ p ∈ edgeList cwd fs root, rank p.2 < rank p.1) : Acyclic cwd fs root := by
  intro l hl
  have mono : ∀ a b, Relation.TransGen (fun x y => (x, y) ∈ edgeList cwd fs root) a b →
      rank b < rank a := by
    intro a b hab
    induction hab with
    | single h1 => exact h _ h1
    | tail h1 h2 ih => exact lt_trans (h _ h2) ih
  exact absurd (mono l l hl) (lt_irrefl _)

/-- Characterization of the dedup-and-push fold: it appends to the
queue exactly a subsequence `new` of the candidates whose labels are
fresh relative to the cache and to the queue at push time; the pushed
labels are pairwise distinct; the discovery trace is extended by
exactly the pushed labels. -/
lemma pushKids_spec (cacheL : List Component) :
    ∀ ks q disc, ∃ new,
      vno.pushKids cacheL q disc ks = (q ++ new, disc ++ new.map Component.label) ∧
      (∀ k ∈ new, k ∈ ks) ∧
      (new.map Component.label).Nodup ∧
      (∀ k ∈ new, k.label ∉ cacheL.map Component.label ∧ k.label ∉ q.map Component.label) := by
  intro ks
  induction ks with
  | nil =>
    intro q disc
    exact ⟨[], by simp [vno.pushKids], by simp, by simp, by simp⟩
  | cons k ks ih =>
    intro q disc
    by_cases hdup :
        (cacheL.any (fun ch => ch.label == k.label) || q.any (fun ch => ch.label == k.label)) = true
    · obtain ⟨new, heq, hsub, hnd, hfresh⟩ := ih q disc
      refine ⟨new, ?_, ?_, hnd, hfresh⟩
      · rw [vno.pushKids, if_pos hdup]
        exact heq
      · exact fun x hx => List.mem_cons_of_mem k (hsub x hx)
    · obtain ⟨new, heq, hsub, hnd, hfresh⟩ := ih (q ++ [k]) (disc ++ [k.label])
      have hfresh_cache : k.label ∉ cacheL.map Component.label := by
        intro hmem
        apply hdup
        rw [Bool.or_eq_true]
        left
        rw [List.any_eq_true]
        obtain ⟨ch, hch, hlab⟩ := List.mem_map.mp hmem
        exact ⟨ch, hch, by simp [hlab]⟩
      have hfresh_q : k.label ∉ q.map Component.label := by
        intro hmem
        apply hdup
        rw [Bool.or_eq_true]
        right
        rw [List.any_eq_true]
        obtain ⟨ch, hch, hlab⟩ := List.mem_map.mp hmem
        exact ⟨ch, hch, by simp [hlab]⟩
      refine ⟨k :: new, ?_, ?_, ?_, ?_⟩
      · rw [vno.pushKids, if_neg hdup, heq]
        simp
      · intro x hx
        rcases List.mem_cons.mp hx with heqx | htail
        · subst heqx
          exact List.mem_cons_self _ _
        · exact List.mem_cons_of_mem k (hsub x htail)
      · rw [List.map_cons, List.nodup_cons]
        refine ⟨?_, hnd⟩
        intro hmem
        obtain ⟨x, hx, hlab⟩ := List.mem_map.mp hmem
        have := (hfresh x hx).2
        apply this
        rw [hlab, List.map_append]
        exact List.mem_append.mpr (Or.inr (by simp))
      · intro x hx
        rcases List.mem_cons.mp hx with heqx | htail
        · subst heqx
          exact ⟨hfresh_cache, hfresh_q⟩
        · have h2 := hfresh x htail
          refine ⟨h2.1, ?_⟩
          intro hmem
          apply h2.2
          rw [List.map_append]
          exact List.mem_append.mpr (Or.inl hmem)

/-- A component among the file-derived discoverables comes from some
present file's import list. -/
lemma allFromFiles_exists (cwd : String) (fs : Fs) (a : Component)
    (h : a ∈ allFromFiles cwd fs) :
    ∃ p0 d0, (p0, d0) ∈ fs ∧ a ∈ (vno.imports cwd d0).getD [] := by
  induction fs with
  | nil => cases h
  | cons pd restF ih =>
    rw [allFromFiles, List.mem_append] at h
    rcases h with hl | hr
    · exact ⟨pd.1, pd.2, List.mem_cons_self _ _, hl⟩
    · obtain ⟨p0, d0, hp0, hk0⟩ := ih hr
      exact ⟨p0, d0, List.mem_cons_of_mem _ hp0, hk0⟩

/-- One scheduler iteration on a well-formed, acyclic input succeeds
and preserves the invariant, growing the cache by exactly one. -/
lemma step_spec (cwd : String) (fs : Fs) (root : Component)
    (hwf : wellFormed cwd fs root) (hacyc : Acyclic cwd fs root)
    (st : BuildState) (hinv : SchedInv cwd fs root st)
    (c : Component) (rest : List Component) (hq : st.queue = c :: rest) :
    ∃ st', vno.step cwd fs st = some st' ∧ SchedInv cwd fs root st' ∧
      st'.cache.length = st.cache.length + 1 := by
  obtain ⟨hdisc, hnd, hmem⟩ := hinv
  have hc : c ∈ st.cache ++ st.queue := by
    rw [hq]
    exact List.mem_append.mpr (Or.inr (List.mem_cons_self _ _))
  obtain ⟨a, ha, hal, hap⟩ := hmem c hc
  have hfind : ∃ data, fsFind fs c.path = some data := by
    rw [← hap]
    rcases List.mem_cons.mp ha with heq | htail
    · subst heq
      exact Option.isSome_iff_exists.mp hwf.1
    · obtain ⟨p0, d0, hp0, hk0⟩ := allFromFiles_exists cwd fs a htail
      exact Option.isSome_iff_exists.mp ((hwf.2 (p0, d0) hp0).2.2.2.2 a hk0)
  obtain ⟨data, hdata⟩ := hfind
  have hfs_mem : (c.path, data) ∈ fs := fsFind_mem fs _ _ hdata
  have hprops := hwf.2 (c.path, data) hfs_mem
  have hT : (vno.template data).isSome = true := hprops.1
  have hS : (vno.script data).isSome = true := hprops.2.1
  have hY : (vno.style data).isSome = true := hprops.2.2.1
  have hI : (vno.imports cwd data).isSome = true := hprops.2.2.2.1
  obtain ⟨t, ht⟩ := Option.isSome_iff_exists.mp hT
  obtain ⟨s, hs⟩ := Option.isSome_iff_exists.mp hS
  obtain ⟨sty, hy⟩ := Option.isSome_iff_exists.mp hY
  obtain ⟨kids, hk⟩ := Option.isSome_iff_exists.mp hI
  have hkids_getD : (vno.imports cwd data).getD [] = kids := by rw [hk]; rfl
  have hkids_all : ∀ k ∈ kids, k ∈ allFromFiles cwd fs := by
    intro k hkk
    exact allFromFiles_mem cwd fs c.path data hfs_mem k (by rw [hkids_getD]; exact hkk)
  have hkid_ne : ∀ k ∈ kids, k.label ≠ c.label := by
    intro k hkk heq
    apply hacyc c.label
    apply Relation.TransGen.single
    have hedge : (a.label, k.label) ∈ edgeList cwd fs root :=
      edge_mem cwd fs root a ha data (by rw [hap]; exact hdata) k
        (by rw [hkids_getD]; exact hkk)
    rw [hal, heq] at hedge
    exact hedge
  obtain ⟨new, hpk, hsub, hndnew, hfresh⟩ := pushKids_spec st.cache kids rest st.discovered
  refine ⟨⟨rest ++ new, st.cache ++ [finalize c t s sty],
    st.discovered ++ new.map Component.label⟩, ?_, ?_, ?_⟩
  · simp only [vno.step, hq, hdata, ht, hs, hy, hk, hpk, finalize]
  · refine ⟨?_, ?_, ?_⟩
    · show st.discovered ++ new.map Component.label = _
      rw [hdisc, hq]
      simp [finalize]
    · show (st.discovered ++ new.map Component.label).Nodup
      rw [hdisc, hq]
      rw [List.nodup_append]
      refine ⟨by rw [hdisc, hq] at hnd; exact hnd, hndnew, ?_⟩
      intro x hx hx2
      obtain ⟨kx, hkx, hlabx⟩ := List.mem_map.mp hx2
      have hfx := hfresh kx hkx
      rw [List.map_append, List.mem_append, List.map_cons, List.mem_cons] at hx
      rcases hx with hxc | hxq
      · exact hfx.1 (hlabx ▸ hxc)
      · rcases hxq with hxcur | hxrest
        · exact hkid_ne kx (hsub kx hkx) (by rw [hlabx, hxcur])
        · exact hfx.2 (hlabx ▸ hxrest)
    · intro x hx
      rw [List.mem_append, List.mem_append] at hx
      rcases hx with (hxc | hxfin) | hxq
      · exact hmem x (List.mem_append.mpr (Or.inl hxc))
      · rw [List.mem_singleton] at hxfin
        subst hxfin
        exact ⟨a, ha, by simp [finalize, hal], by simp [finalize, hap]⟩
      · rw [List.mem_append] at hxq
        rcases hxq with hxrest | hxnew
        · refine hmem x (List.mem_append.mpr (Or.inr ?_))
          rw [hq]
          exact List.mem_cons_of_mem _ hxrest
        · refine ⟨x, ?_, rfl, rfl⟩
          rw [allComponents]
          exact List.mem_cons_of_mem _ (hkids_all x (hsub x hxnew))
  · simp

/-- The invariant bounds the total number of live records by the number
of discoverable components. -/
lemma schedInv_size (cwd : String) (fs : Fs) (root : Component) (st : BuildState)
    (h : SchedInv cwd fs root st) :
    st.cache.length + st.queue.length ≤ (allComponents cwd fs root).length := by
  obtain ⟨hdisc, hnd, hmem⟩ := h
  have hsub : st.discovered ⊆ (allComponents cwd fs root).map Component.label := by
    rw [hdisc]
    intro x hx
    obtain ⟨comp, hcomp, hlab⟩ := List.mem_map.mp hx
    obtain ⟨a, ha, hal, _⟩ := hmem comp hcomp
    exact List.mem_map.mpr ⟨a, ha, by rw [hal, hlab]⟩
  have hlen : st.discovered.length = st.cache.length + st.queue.length := by
    rw [hdisc]
    simp
  have hsubF : st.discovered.toFinset ⊆
      ((allComponents cwd fs root).map Component.label).toFinset := by
    intro x hx
    rw [List.mem_toFinset] at hx ⊢
    exact hsub hx
  calc st.cache.length + st.queue.length = st.discovered.length := hlen.symm
    _ = st.discovered.toFinset.card := (List.toFinset_card_of_nodup hnd).symm
    _ ≤ ((allComponents cwd fs root).map Component.label).toFinset.card :=
        Finset.card_le_card hsubF
    _ ≤ ((allComponents cwd fs root).map Component.label).length :=
        List.toFinset_card_le _
    _ = (allComponents cwd fs root).length := by simp

/-- With fuel at least one more than the number of discoverable
components minus the records already finalized, the loop drains the
worklist completely, preserving the invariant. -/
lemma parseLoop_empties (cwd : String) (fs : Fs) (root : Component)
    (hwf : wellFormed cwd fs root) (hacyc : Acyclic cwd fs root) :
    ∀ fuel st, SchedInv cwd fs root st →
      (allComponents cwd fs root).length + 1 ≤ fuel + st.cache.length →
      ∃ st', vno.parseLoop cwd fs fuel st = some st' ∧ SchedInv cwd fs root st' ∧
        st'.queue = [] := by
  intro fuel
  induction fuel with
  | zero =>
    intro st hinv hle
    refine ⟨st, rfl, hinv, ?_⟩
    cases hq : st.queue with
    | nil => rfl
    | cons c rest =>
      exfalso
      have hsz := schedInv_size cwd fs root st hinv
      rw [hq] at hsz
      simp only [List.length_cons] at hsz
      omega
  | succ fuel ih =>
    intro st hinv hle
    cases hq : st.queue with
    | nil =>
      refine ⟨st, ?_, hinv, hq⟩
      simp [vno.parseLoop, hq]
    | cons c rest =>
      obtain ⟨st1, hstep, hinv1, hlen⟩ := step_spec cwd fs root hwf hacyc st hinv c rest hq
      obtain ⟨st', hloop, hinv', hq'⟩ := ih st1 hinv1 (by omega)
      refine ⟨st', ?_, hinv', hq'⟩
      simp [vno.parseLoop, hq, hstep, hloop]

/-- The invariant is preserved by any number of loop iterations. -/
lemma parseLoop_inv (cwd : String) (fs : Fs) (root : Component)
    (hwf : wellFormed cwd fs root) (hacyc : Acyclic cwd fs root) :
    ∀ fuel st st', SchedInv cwd fs root st →
      vno.parseLoop cwd fs fuel st = some st' → SchedInv cwd fs root st' := by
  intro fuel
  induction fuel with
  | zero =>
    intro st st' hinv h
    rw [vno.parseLoop] at h
    cases h
    exact hinv
  | succ fuel ih =>
    intro st st' hinv h
    cases hq : st.queue with
    | nil =>
      rw [vno.parseLoop, hq] at h
      cases h
      exact hinv
    | cons c rest =>
      obtain ⟨st1, hstep, hinv1, _⟩ := step_spec cwd fs root hwf hacyc st hinv c rest hq
      rw [vno.parseLoop, hq, hstep] at h
      exact ih st1 st' hinv1 h

/-- The invariant holds at loop entry. -/
lemma schedInv_init (cwd : String) (fs : Fs) (root : Component) :
    SchedInv cwd fs root (vno.initState root) := by
  refine ⟨by simp [vno.initState], by simp [vno.initState], ?_⟩
  intro x hx
  simp only [vno.initState, List.nil_append, List.mem_singleton] at hx
  exact ⟨root, List.mem_cons_self _ _, by rw [hx], by rw [hx]⟩

/-- Claim C1: on a well-formed component set whose import graph by
label has no cycles, the parse loop terminates with an empty worklist;
the cache (store) then lists exactly the discovered labels in discovery
order, without duplicates, so the number of store insertions equals the
number of distinct labels discovered and no label is inserted twice. -/
theorem c1_scheduler_terminates (cwd : String) (fs : Fs) (root : Component) (fuel : Nat)
    (hwf : wellFormed cwd fs root) (hacyc : Acyclic cwd fs root)
    (hfuel : (allComponents cwd fs root).length + 1 ≤ fuel) :
    ∃ st, vno.parseLoop cwd fs fuel (vno.initState root) = some st ∧ st.queue = [] ∧
      st.cache.map Component.label = st.discovered ∧ st.discovered.Nodup ∧
      st.cache.length = st.discovered.length := by
  obtain ⟨st, hloop, hinv, hq⟩ := parseLoop_empties cwd fs root hwf hacyc fuel
    (vno.initState root) (schedInv_init cwd fs root) (by simp [vno.initState]; omega)
  obtain ⟨hdisc, hnd, _⟩ := hinv
  refine ⟨st, hloop, hq, ?_, hnd, ?_⟩
  · rw [hdisc, hq]
    simp
  · rw [hdisc, hq]
    simp

/-- Claim C2 amended: provided the import graph by label has no cycles,
at every observable scheduler state each discovered label is in exactly
one of worklist and store (the discovery trace is exactly the store
followed by the worklist) and no label is discovered twice, so every
record enters the worklist exactly once. -/
theorem c2_partition_requires_acyclic (cwd : String) (fs : Fs) (root : Component)
    (fuel : Nat) (st : BuildState)
    (hwf : wellFormed cwd fs root) (hacyc : Acyclic cwd fs root)
    (h : vno.parseLoop cwd fs fuel (vno.initState root) = some st) :
    st.discovered = (st.cache ++ st.queue).map Component.label ∧ st.discovered.Nodup := by
  have hinv := parseLoop_inv cwd fs root hwf hacyc fuel (vno.initState root) st
    (schedInv_init cwd fs root) h
  exact ⟨hinv.1, hinv.2.1⟩

/-- Witness for C1 on the concrete two-component acyclic fixture. -/
theorem c1_witness :
    wellFormed cwdW fsGood rootW ∧ Acyclic cwdW fsGood rootW ∧
    (allComponents cwdW fsGood rootW).length + 1 ≤ 3 ∧
    (∃ st, vno.parseLoop cwdW fsGood 3 (vno.initState rootW) = some st ∧ st.queue = [] ∧
      st.cache.map Component.label = st.discovered ∧ st.discovered.Nodup ∧
      st.cache.length = st.discovered.length) := by
  have hacyc : Acyclic cwdW fsGood rootW := acyclic_of_rank cwdW fsGood rootW
    (fun l => if l = "Child" then 0 else 1) (by decide)
  exact ⟨by decide, hacyc, by decide,
    c1_scheduler_terminates cwdW fsGood rootW 3 (by decide) hacyc (by decide)⟩

/-- Witness for the amended C2 on the same acyclic fixture. -/
theorem c2_witness :
    wellFormed cwdW fsGood rootW ∧ Acyclic cwdW fsGood rootW ∧
    (∃ st, vno.parseLoop cwdW fsGood 3 (vno.initState rootW) = some st ∧
      st.discovered = (st.cache ++ st.queue).map Component.label ∧ st.discovered.Nodup) := by
  have hacyc : Acyclic cwdW fsGood rootW := acyclic_of_rank cwdW fsGood rootW
    (fun l => if l = "Child" then 0 else 1) (by decide)
  have hs : (vno.parseLoop cwdW fsGood 3 (vno.initState rootW)).isSome = true := by decide
  obtain ⟨st, hst⟩ := Option.isSome_iff_exists.mp hs
  obtain ⟨h1, h2⟩ := c2_partition_requires_acyclic cwdW fsGood rootW 3 st (by decide) hacyc hst
  exact ⟨by decide, hacyc, st, hst, h1, h2⟩
